import Mathlib

/-!
Shallow embedding of the chain state engine of a pedagogical proof-of-work
cryptocurrency (Rust sources: lib/src/types/block.rs, lib/src/types/blockchain.rs,
lib/src/util.rs, lib/src/lib.rs).

Machine integers are modelled as Nat with explicit reduction modulo 2^64
(u64, release-profile wrapping) and 2^256 (U256).  Rust HashMap values are
modelled as association lists whose operations act on the first occurrence
of a key; every map built by the embedded code keeps its keys distinct, so
this coincides with HashMap semantics.  Iteration-order-dependent reads of
a HashMap never occur in the embedded code paths (sums over map values are
commutative modulo 2^64).

Operations that can panic in Rust (index out of bounds, expect on None,
U256 multiplication overflow in the uint crate, U256 parse failure) are
modelled by an explicit crashed / none result.
-/

namespace Btc

/-- u64 modulus. -/
def U64MOD : Nat := 2 ^ 64

/-- U256 modulus. -/
def U256MOD : Nat := 2 ^ 256

/-- lib.rs: INITIAL_REWARD. -/
def INITIAL_REWARD : Nat := 50

/-- lib.rs: HALVING_INTERVAL. -/
def HALVING_INTERVAL : Nat := 210

/-- lib.rs: IDEAL_BLOCK_TIME (seconds). -/
def IDEAL_BLOCK_TIME : Nat := 10

/-- lib.rs: DIFFICULTY_UPDATE_INTERVAL. -/
def DIFFICULTY_UPDATE_INTERVAL : Nat := 50

/-- lib.rs: BLOCK_TRANSACTION_CAP. -/
def BLOCK_TRANSACTION_CAP : Nat := 20

/-- lib.rs: MIN_TARGET, the all-ones U256. -/
def MIN_TARGET : Nat := 2 ^ 256 - 1

/-- A 256-bit SHA-256 digest, read as a big-endian integer (< 2^256). -/
abbrev Hash := Nat

/-- u64 addition (wrapping, as the release-profile Rust sums do). -/
def u64add (a b : Nat) : Nat := (a + b) % U64MOD

/-- u64 subtraction (wrapping); faithful for a b < 2^64. -/
def u64sub (a b : Nat) : Nat := (a + U64MOD - b) % U64MOD

/-- Iterator::sum over u64 values: left fold of wrapping addition from 0. -/
def sumValuesU64 (l : List Nat) : Nat := l.foldl u64add 0

/-- Modelled from the spec: secp256k1 public key (crypto.rs declares the type
but src/ carries no verification code; only its equality matters here). -/
structure PublicKey where
  key : Nat
  deriving DecidableEq, Repr

/-- Modelled from the spec: an ECDSA signature is determined by the digest it
signs and the key of its signer; `verify (h, sig, P)` succeeds iff sig was
made over h under P.  (crypto.rs declares Signature without verify.) -/
structure Signature where
  signedHash : Hash
  signer : PublicKey
  deriving DecidableEq, Repr

/-- Modelled from the spec: ECDSA verification of (h, sig, P). -/
def sigVerify (s : Signature) (h : Hash) (pk : PublicKey) : Bool :=
  s.signedHash == h && s.signer == pk

/-- types.rs: TransactionOutput { value: u64, unique_id: Uuid, pubkey }. -/
structure TransactionOutput where
  value : Nat
  uniqueId : Nat
  pubkey : PublicKey
  deriving DecidableEq, Repr

/-- types.rs: TransactionInput { prev_transaction_output_hash, signature }. -/
structure TransactionInput where
  prevTransactionOutputHash : Hash
  signature : Signature
  deriving DecidableEq, Repr

/-- types.rs: Transaction { inputs, outputs }. -/
structure Transaction where
  inputs : List TransactionInput
  outputs : List TransactionOutput
  deriving DecidableEq, Repr

/-- types/block.rs: BlockHeader.  Timestamps are UTC instants at millisecond
precision, modelled as integer milliseconds.  The merkle root is its Hash. -/
structure BlockHeader where
  timestamp : Int
  nonce : Nat
  prevBlockHash : Hash
  merkleRoot : Hash
  target : Nat
  deriving DecidableEq, Repr

/-- types/block.rs: Block { header, transactions }. -/
structure Block where
  header : BlockHeader
  transactions : List Transaction
  deriving DecidableEq, Repr

/-- One UTXO map entry: output hash ↦ (reserved flag, output). -/
abbrev UtxoMap := List (Hash × (Bool × TransactionOutput))

/-- types/blockchain.rs: Blockchain { utxos, target, blocks, mempool }.
Mempool entries carry their admission timestamp. -/
structure Blockchain where
  utxos : UtxoMap
  target : Nat
  blocks : List Block
  mempool : List (Int × Transaction)
  deriving DecidableEq, Repr

/-!  Canonical hashing.  Modelled from the spec: sha256.rs is absent from
src/; the spec states that Hash.hash canonically serializes an entity (CBOR,
deterministic) and applies SHA-256, producing a 32-byte digest compared with
a target as a big-endian integer.  We model the digest of an entity as a
deterministic encoding of its fields reduced modulo 2^256. -/

/-- Cantor pairing, the base of the deterministic entity encodings. -/
def np (a b : Nat) : Nat := (a + b) * (a + b + 1) / 2 + b

/-- Encoding of a signed timestamp. -/
def encInt (i : Int) : Nat := if i < 0 then 2 * (-i).toNat + 1 else 2 * i.toNat

/-- Encoding of a list of already-encoded values. -/
def encList : List Nat → Nat
  | [] => 0
  | x :: rest => np x (encList rest) + 1

/-- Field encoding of a TransactionOutput. -/
def encOutput (o : TransactionOutput) : Nat :=
  np o.value (np o.uniqueId o.pubkey.key)

/-- Field encoding of a TransactionInput. -/
def encInput (i : TransactionInput) : Nat :=
  np i.prevTransactionOutputHash
    (np i.signature.signedHash i.signature.signer.key)

/-- Field encoding of a Transaction. -/
def encTx (t : Transaction) : Nat :=
  np (encList (t.inputs.map encInput)) (encList (t.outputs.map encOutput))

/-- Field encoding of a BlockHeader. -/
def encHeader (h : BlockHeader) : Nat :=
  np (encInt h.timestamp)
    (np h.nonce (np h.prevBlockHash (np h.merkleRoot h.target)))

/-- TransactionOutput::hash (Hash::hash of the output). -/
def hashOutput (o : TransactionOutput) : Hash := np 1 (encOutput o) % U256MOD

/-- Transaction::hash (Hash::hash of the transaction). -/
def hashTx (t : Transaction) : Hash := np 2 (encTx t) % U256MOD

/-- BlockHeader::hash (Hash::hash of the header). -/
def hashHeader (h : BlockHeader) : Hash := np 3 (encHeader h) % U256MOD

/-- Block::hash (Hash::hash of the whole block). -/
def hashBlock (b : Block) : Hash :=
  np 4 (np (encHeader b.header) (encList (b.transactions.map encTx))) % U256MOD

/-- Hash::hash of a two-element array of hashes (merkle combination). -/
def hashPair (l r : Hash) : Hash := np 5 (np l r) % U256MOD

/-- Hash::zero. -/
def hashZero : Hash := 0

/-- Modelled from the spec: Hash::matches_target — the digest, as a
big-endian integer, is ≤ the target. -/
def matchesTarget (h : Hash) (target : Nat) : Bool := h ≤ target

/-!  Association-list counterparts of the HashMap operations the source
uses: get, contains_key, insert (overwrite), remove, entry().and_modify. -/

/-- HashMap::get. -/
def alGet {β : Type} : List (Hash × β) → Hash → Option β
  | [], _ => none
  | (k, v) :: rest, h => if k = h then some v else alGet rest h

/-- HashMap::contains_key. -/
def alContains {β : Type} (m : List (Hash × β)) (k : Hash) : Bool :=
  (alGet m k).isSome

/-- HashMap::insert (overwrites an existing entry for the key). -/
def alInsert {β : Type} : List (Hash × β) → Hash → β → List (Hash × β)
  | [], k, v => [(k, v)]
  | (k', v') :: rest, k, v =>
    if k' = k then (k, v) :: rest else (k', v') :: alInsert rest k v

/-- HashMap::remove. -/
def alRemove {β : Type} : List (Hash × β) → Hash → List (Hash × β)
  | [], _ => []
  | (k', v') :: rest, k =>
    if k' = k then rest else (k', v') :: alRemove rest k

/-- entry(k).and_modify(set the reserved flag); no-op when k is absent. -/
def alSetReserved : UtxoMap → Hash → Bool → UtxoMap
  | [], _, _ => []
  | (k', (r, o)) :: rest, k, b =>
    if k' = k then (k', (b, o)) :: rest
    else (k', (r, o)) :: alSetReserved rest k b

/-- The key list of an association list. -/
def alKeys {β : Type} (m : List (Hash × β)) : List Hash := m.map (·.1)

/-!  Per-input and per-transaction vocabulary shared by the code embedding
and the C7 characterization of verify_transactions. -/

/-- The input's prev_transaction_output_hash exists in utxos and its
signature verifies over that hash under the referenced UTXO's pubkey. -/
def inputExistsAndSigns (utxos : UtxoMap) (i : TransactionInput) : Prop :=
  match alGet utxos i.prevTransactionOutputHash with
  | some p =>
    sigVerify i.signature i.prevTransactionOutputHash p.2.pubkey = true
  | none => False

instance (utxos : UtxoMap) (i : TransactionInput) :
    Decidable (inputExistsAndSigns utxos i) := by
  unfold inputExistsAndSigns; split <;> infer_instance

/-- The value an input contributes: the referenced UTXO's value (0 when the
lookup fails; only used under inputExistsAndSigns). -/
def inputVal (utxos : UtxoMap) (i : TransactionInput) : Nat :=
  match alGet utxos i.prevTransactionOutputHash with
  | some p => p.2.value
  | none => 0

/-- A transaction's total input value against a UTXO set, accumulated as
the wrapping u64 sum of the code. -/
def txInputValueSum (utxos : UtxoMap) (tx : Transaction) : Nat :=
  sumValuesU64 (tx.inputs.map (inputVal utxos))

/-- A transaction's total output value, accumulated as the wrapping u64 sum
of the code. -/
def txOutputValueSum (tx : Transaction) : Nat :=
  sumValuesU64 (tx.outputs.map (·.value))

/-- The referenced UTXO hashes of an input list, in order. -/
def inputHashes (ins : List TransactionInput) : List Hash :=
  ins.map (·.prevTransactionOutputHash)

/-- All input hashes of a transaction list, in order of appearance. -/
def allInputHashes : List Transaction → List Hash
  | [] => []
  | tx :: rest => inputHashes tx.inputs ++ allInputHashes rest

/-!  util.rs: MerkleRoot::calculate.  The while loop pairs adjacent layer
elements (chunks(2)), duplicating the last element of an odd layer, until a
single hash remains; it then reads layer[0].  On an empty transaction list
the loop body never runs and layer[0] is an out-of-bounds index: the Rust
code panics, modelled as `none`. -/

/-- One merkle layer: chunks(2) with the last element of an odd chunk
duplicated, each chunk combined by Hash::hash of the pair. -/
def merkleLayer : List Hash → List Hash
  | [] => []
  | [x] => [hashPair x x]
  | x :: y :: rest => hashPair x y :: merkleLayer rest

/-- The while loop of MerkleRoot::calculate followed by the layer[0] read,
written with explicit fuel so that it is structural (the kernel can run it);
each iteration shrinks the layer, so fuel = initial layer length never runs
out (merkleReduceAux_isSome below), and the fuel-exhausted branch is
unreachable. -/
def merkleReduceAux : Nat → List Hash → Option Hash
  | _, [] => none
  | _, [x] => some x
  | 0, _ :: _ :: _ => none
  | fuel + 1, x :: y :: rest =>
    merkleReduceAux fuel (hashPair x y :: merkleLayer rest)

/-- util.rs: MerkleRoot::calculate (none models the layer[0] panic on an
empty transaction list). -/
def merkleCalculate (transactions : List Transaction) : Option Hash :=
  merkleReduceAux transactions.length (transactions.map hashTx)

/-!  Errors, and results of the mutating Blockchain operations.  A Rust
`&mut self` method that returns Err leaves the mutations it already made,
so an error result carries the post-call state. -/

/-- error.rs: the BtcError variants reachable from the embedded code. -/
inductive BtcError where
  | InvalidTransaction
  | InvalidBlock
  | InvalidMerkleRoot
  | InvalidSignature
  deriving DecidableEq, Repr

deriving instance DecidableEq for Except

/-- Result of a mutating Blockchain operation: Ok with the new state, Err
with the error and the (possibly mutated) post-call state, or a Rust panic. -/
inductive ExecResult where
  | ok (c : Blockchain)
  | err (e : BtcError) (c : Blockchain)
  | crashed
  deriving DecidableEq, Repr

/-- True iff the operation returned Ok. -/
def ExecResult.isOk : ExecResult → Bool
  | .ok _ => true
  | _ => false

/-- The post-call state of an operation (dflt when it panicked). -/
def ExecResult.stateOf (r : ExecResult) (dflt : Blockchain) : Blockchain :=
  match r with
  | .ok c => c
  | .err _ c => c
  | .crashed => dflt

/-!  types/block.rs: Block::calculate_miner_fees.  The source declares the
`inputs` accumulator immutably and never inserts into it, so it stays empty;
the `outputs` accumulator is (re)filled inside the loop over each
transaction's inputs. -/

/-- The inner loop over tx.outputs of calculate_miner_fees: rejects an
output hash already present, otherwise inserts it. -/
def cmfOutputsLoop : List TransactionOutput →
    List (Hash × TransactionOutput) →
    Except BtcError (List (Hash × TransactionOutput))
  | [], acc => .ok acc
  | o :: rest, acc =>
    if alContains acc (hashOutput o) then .error .InvalidTransaction
    else cmfOutputsLoop rest (alInsert acc (hashOutput o) o)

/-- The loop over one transaction's inputs of calculate_miner_fees.  For
each input: the referenced UTXO must exist; the check against the (always
empty) `inputs` accumulator never fires; then the outputs loop runs. -/
def cmfInputsLoop (utxos : UtxoMap) (outs : List TransactionOutput) :
    List TransactionInput → List (Hash × TransactionOutput) →
    Except BtcError (List (Hash × TransactionOutput))
  | [], acc => .ok acc
  | i :: rest, acc =>
    match alGet utxos i.prevTransactionOutputHash with
    | none => .error .InvalidTransaction
    | some _ =>
      match cmfOutputsLoop outs acc with
      | .error e => .error e
      | .ok acc' => cmfInputsLoop utxos outs rest acc'

/-- The loop over the non-coinbase transactions of calculate_miner_fees. -/
def cmfTxLoop (utxos : UtxoMap) : List Transaction →
    List (Hash × TransactionOutput) →
    Except BtcError (List (Hash × TransactionOutput))
  | [], acc => .ok acc
  | tx :: rest, acc =>
    match cmfInputsLoop utxos tx.outputs tx.inputs acc with
    | .error e => .error e
    | .ok acc' => cmfTxLoop utxos rest acc'

/-- types/block.rs: Block::calculate_miner_fees.  input_value sums the
never-populated `inputs` map (hence 0); output_value sums the `outputs`
map; the result is their wrapping u64 difference. -/
def calculateMinerFees (b : Block) (utxos : UtxoMap) : Except BtcError Nat :=
  match cmfTxLoop utxos (b.transactions.drop 1) [] with
  | .error e => .error e
  | .ok outputs =>
    let inputValue := 0
    let outputValue := sumValuesU64 (outputs.map (·.2.value))
    .ok (u64sub inputValue outputValue)

/-- types/block.rs: the block subsidy
INITIAL_REWARD * 10^8 / 2^(height / HALVING_INTERVAL), with the exponent
taken as u64 (for height < 64 * HALVING_INTERVAL this is the exact value). -/
def blockReward (height : Nat) : Nat :=
  INITIAL_REWARD * 10 ^ 8 / (2 ^ (height / HALVING_INTERVAL) % U64MOD)

/-- types/block.rs: Block::verify_coinbase_transaction.  The source indexes
transactions[0]; callers reach it only after a nonempty check, so the empty
case (a Rust index panic) is mapped to an error it cannot produce. -/
def verifyCoinbaseTransaction (b : Block) (height : Nat) (utxos : UtxoMap) :
    Except BtcError Unit :=
  match b.transactions with
  | [] => .error .InvalidTransaction
  | coinbase :: _ =>
    if coinbase.inputs.length ≠ 0 then .error .InvalidTransaction
    else if coinbase.outputs.length = 0 then .error .InvalidTransaction
    else
      match calculateMinerFees b utxos with
      | .error e => .error e
      | .ok minerFees =>
        let total := sumValuesU64 (coinbase.outputs.map (·.value))
        if total ≠ u64add (blockReward height) minerFees then
          .error .InvalidTransaction
        else .ok ()

/-!  types/block.rs: Block::verify_transactions.  The `inputs` accumulator
persists across the non-coinbase transactions, so the duplicate-input check
spans the whole block. -/

/-- The loop over one transaction's inputs of verify_transactions.
Checks, in source order: referenced UTXO exists; its hash is not already in
the accumulator; the signature verifies over the hash under the UTXO's
pubkey.  Accumulates (wrapping) input value and the visited entry. -/
def vtInputsLoop (utxos : UtxoMap) :
    List TransactionInput → List (Hash × TransactionOutput) → Nat →
    Except BtcError (List (Hash × TransactionOutput) × Nat)
  | [], acc, v => .ok (acc, v)
  | i :: rest, acc, v =>
    match alGet utxos i.prevTransactionOutputHash with
    | none => .error .InvalidTransaction
    | some p =>
      if alContains acc i.prevTransactionOutputHash then
        .error .InvalidTransaction
      else if ¬ sigVerify i.signature i.prevTransactionOutputHash
          p.2.pubkey then
        .error .InvalidSignature
      else
        vtInputsLoop utxos rest
          (alInsert acc i.prevTransactionOutputHash p.2)
          (u64add v p.2.value)

/-- The loop over the non-coinbase transactions of verify_transactions.
The insolvency check appears twice in the source; both raise the same
error, so one test is an exact model. -/
def vtTxLoop (utxos : UtxoMap) :
    List Transaction → List (Hash × TransactionOutput) →
    Except BtcError Unit
  | [], _ => .ok ()
  | tx :: rest, acc =>
    match vtInputsLoop utxos tx.inputs acc 0 with
    | .error e => .error e
    | .ok (acc', inputValue) =>
      if inputValue < txOutputValueSum tx then
        .error .InvalidTransaction
      else vtTxLoop utxos rest acc'

/-- types/block.rs: Block::verify_transactions. -/
def verifyTransactions (b : Block) (height : Nat) (utxos : UtxoMap) :
    Except BtcError Unit :=
  if b.transactions.isEmpty then .error .InvalidTransaction
  else
    match verifyCoinbaseTransaction b height utxos with
    | .error e => .error e
    | .ok _ => vtTxLoop utxos (b.transactions.drop 1) []

/-- types/blockchain.rs: Blockchain::new. -/
def blockchainNew : Blockchain :=
  { blocks := [], utxos := [], target := MIN_TARGET, mempool := [] }

/-- chrono Duration::num_seconds on a millisecond difference: whole seconds,
truncated toward zero. -/
def tdivMillis (a : Int) : Int :=
  if a < 0 then -(((-a).toNat / 1000 : Nat) : Int)
  else ((a.toNat / 1000 : Nat) : Int)

/-- types/blockchain.rs: the target computed by Blockchain::try_adjust_target
(`some` new target value, `none` where the Rust code panics).  The BigDecimal
product target * elapsed_seconds is exact; its decimal string is truncated at
the decimal point, so a negative product yields a string starting with a
minus sign, which U256::from_str_radix rejects (expect panic), and a
truncated value ≥ 2^256 also fails the parse (expect panic).  In the clamp,
`self.target * 4` is a uint-crate U256 multiplication, which panics on
overflow; it is evaluated only when the first branch fails. -/
def adjustCandidate (c : Blockchain) : Option Nat :=
  if c.blocks.isEmpty then some c.target
  else if c.blocks.length % DIFFICULTY_UPDATE_INTERVAL ≠ 0 then some c.target
  else
    match c.blocks.get? (c.blocks.length - DIFFICULTY_UPDATE_INTERVAL),
        c.blocks.getLast? with
    | some first, some last =>
      let timeDiffSeconds : Int :=
        tdivMillis (last.header.timestamp - first.header.timestamp)
      let numer : Int := (c.target : Int) * timeDiffSeconds
      if numer < 0 then none
      else
        let cand := numer.toNat / (IDEAL_BLOCK_TIME * DIFFICULTY_UPDATE_INTERVAL)
        if U256MOD ≤ cand then none
        else if cand < c.target / 4 then some (min (c.target / 4) MIN_TARGET)
        else if U256MOD ≤ c.target * 4 then none
        else if c.target * 4 < cand then some (min (c.target * 4) MIN_TARGET)
        else some (min cand MIN_TARGET)
    | _, _ => none

/-- types/blockchain.rs: Blockchain::try_adjust_target; only the target
field is assigned. -/
def tryAdjustTarget (c : Blockchain) : Option Blockchain :=
  (adjustCandidate c).map (fun t => { c with target := t })

/-- The state pushed by the unconditional tail of Blockchain::add_block:
mempool entries whose transaction hash occurs among the block's transaction
hashes are dropped, and the block is appended. -/
def pushBlock (c : Blockchain) (b : Block) : Blockchain :=
  { c with
    mempool := c.mempool.filter
      (fun e => ¬ (b.transactions.map hashTx).contains (hashTx e.2)),
    blocks := c.blocks ++ [b] }

/-- The unconditional tail of Blockchain::add_block: prune the mempool,
push the block, then try_adjust_target. -/
def finishAdd (c : Blockchain) (b : Block) : ExecResult :=
  match tryAdjustTarget (pushBlock c b) with
  | some c2 => .ok c2
  | none => .crashed

/-- types/blockchain.rs: Blockchain::add_block.  Validation happens before
any mutation, so every error carries the unchanged state.  For a non-genesis
block with an empty transaction list, MerkleRoot::calculate panics before
verify_transactions can reject it.  (The source phrases each check as
"if violated, return Err"; the branches here are the same tests with the
error in the else arm.) -/
def addBlock (c : Blockchain) (b : Block) : ExecResult :=
  if hne : c.blocks = [] then
    if b.header.prevBlockHash = hashZero then finishAdd c b
    else .err .InvalidBlock c
  else
    if matchesTarget (hashHeader b.header) b.header.target = true then
      if b.header.prevBlockHash = hashBlock (c.blocks.getLast hne) then
        match merkleCalculate b.transactions with
        | none => .crashed
        | some root =>
          if b.header.merkleRoot = root then
            if (c.blocks.getLast hne).header.timestamp < b.header.timestamp
            then
              match verifyTransactions b c.blocks.length c.utxos with
              | .error e => .err e c
              | .ok _ => finishAdd c b
            else .err .InvalidBlock c
          else .err .InvalidMerkleRoot c
      else .err .InvalidBlock c
    else .err .InvalidBlock c

/-!  types/blockchain.rs: Blockchain::add_to_mempool, split into its phases
in source order. -/

/-- Phase 1 of add_to_mempool: every input's referenced UTXO exists and no
input hash repeats within the transaction (known_inputs). -/
def atmCheckInputs (utxos : UtxoMap) :
    List TransactionInput → List Hash → Option BtcError
  | [], _ => none
  | i :: rest, known =>
    if ¬ alContains utxos i.prevTransactionOutputHash then
      some .InvalidTransaction
    else if known.contains i.prevTransactionOutputHash then
      some .InvalidTransaction
    else atmCheckInputs utxos rest (i.prevTransactionOutputHash :: known)

/-- The mempool search of phase 2: the first entry (by index) whose
transaction's OUTPUTS contain the given hash. -/
def atmFindReferencing (mempool : List (Int × Transaction)) (h : Hash) :
    Option (Nat × (Int × Transaction)) :=
  match mempool with
  | [] => none
  | e :: rest =>
    if e.2.outputs.any (fun o => hashOutput o == h) then some (0, e)
    else (atmFindReferencing rest h).map (fun (i, e') => (i + 1, e'))

/-- Phase 2 of add_to_mempool: for each input whose UTXO is reserved, look
for a mempool transaction whose outputs contain the hash; if found, clear
the reservations of that transaction's inputs and remove it, else just
clear the flag of this input's UTXO. -/
def atmConflictLoop : List TransactionInput →
    UtxoMap × List (Int × Transaction) → UtxoMap × List (Int × Transaction)
  | [], st => st
  | i :: rest, (utxos, mempool) =>
    match alGet utxos i.prevTransactionOutputHash with
    | some (true, _) =>
      match atmFindReferencing mempool i.prevTransactionOutputHash with
      | some (idx, (_, rtx)) =>
        let utxos' := rtx.inputs.foldl
          (fun u inp => alSetReserved u inp.prevTransactionOutputHash false)
          utxos
        atmConflictLoop rest (utxos', mempool.eraseIdx idx)
      | none =>
        atmConflictLoop rest
          (alSetReserved utxos i.prevTransactionOutputHash false, mempool)
    | _ => atmConflictLoop rest (utxos, mempool)

/-- The input values of a transaction looked up in a UTXO map; none models
the `.expect("Bug Impossible")` panic on a missing entry. -/
def atmInputValues (utxos : UtxoMap) :
    List TransactionInput → Option (List Nat)
  | [] => some []
  | i :: rest =>
    match alGet utxos i.prevTransactionOutputHash with
    | none => none
    | some p => (atmInputValues utxos rest).map (fun vs => p.2.value :: vs)

/-- The sort key of the final mempool sort: the wrapping u64 miner fee of an
entry, none when an input lookup would panic. -/
def mempoolFee (utxos : UtxoMap) (e : Int × Transaction) : Option Nat :=
  (atmInputValues utxos e.2.inputs).map (fun vs =>
    u64sub (sumValuesU64 vs) (sumValuesU64 (e.2.outputs.map (·.value))))

/-- Keys every mempool entry by its fee, none when any lookup panics. -/
def mempoolKeyed (utxos : UtxoMap) :
    List (Int × Transaction) → Option (List (Nat × (Int × Transaction)))
  | [] => some []
  | e :: rest =>
    match mempoolFee utxos e with
    | none => none
    | some f => (mempoolKeyed utxos rest).map (fun l => (f, e) :: l)

/-- Stable insertion of one keyed entry into an ascending keyed list. -/
def insertByFee (x : Nat × (Int × Transaction)) :
    List (Nat × (Int × Transaction)) → List (Nat × (Int × Transaction))
  | [] => [x]
  | y :: rest =>
    if y.1 ≤ x.1 then y :: insertByFee x rest else x :: y :: rest

/-- Vec::sort_by_key (a stable ascending sort): inserting the entries left
to right keeps equal-fee entries in their original order. -/
def sortByFee (l : List (Nat × (Int × Transaction))) :
    List (Nat × (Int × Transaction)) :=
  l.foldl (fun acc x => insertByFee x acc) []

/-- Phase 4 of add_to_mempool: mark all of the transaction's referenced
UTXOs reserved. -/
def atmReserveAll (utxos : UtxoMap) (tx : Transaction) : UtxoMap :=
  tx.inputs.foldl
    (fun u i => alSetReserved u i.prevTransactionOutputHash true) utxos

/-- Phases 3-5 of add_to_mempool, run on the state (utxos2, mempool2) that
phase 2 left behind: solvency check (whose error keeps the phase-2
mutations), reservation, push and stable fee sort. -/
def atmAfterConflict (now : Int) (c : Blockchain) (tx : Transaction)
    (utxos2 : UtxoMap) (mempool2 : List (Int × Transaction)) : ExecResult :=
  match atmInputValues utxos2 tx.inputs with
  | none => .crashed
  | some vals =>
    if sumValuesU64 vals < sumValuesU64 (tx.outputs.map (·.value)) then
      .err .InvalidTransaction { c with utxos := utxos2, mempool := mempool2 }
    else
      match mempoolKeyed (atmReserveAll utxos2 tx)
          (mempool2 ++ [(now, tx)]) with
      | none => .crashed
      | some keyed =>
        .ok { c with utxos := atmReserveAll utxos2 tx,
                     mempool := (sortByFee keyed).map (·.2) }

/-- types/blockchain.rs: Blockchain::add_to_mempool.  `now` is the
admission timestamp Utc::now() of the push.  The insolvency error is
returned AFTER phase 2 has mutated the state, so it carries the mutated
utxos and mempool. -/
def addToMempool (now : Int) (c : Blockchain) (tx : Transaction) :
    ExecResult :=
  match atmCheckInputs c.utxos tx.inputs [] with
  | some e => .err e c
  | none =>
    atmAfterConflict now c tx
      (atmConflictLoop tx.inputs (c.utxos, c.mempool)).1
      (atmConflictLoop tx.inputs (c.utxos, c.mempool)).2

/-- types/blockchain.rs: Blockchain::rebuild_utxos.  For each transaction of
each block in order: remove the keys consumed by its inputs, then insert
each output under the TRANSACTION's hash (the key the source actually
uses). -/
def rebuildUtxos (c : Blockchain) : Blockchain :=
  { c with
    utxos := c.blocks.foldl (fun u blk =>
      blk.transactions.foldl (fun u tx =>
        let u' := tx.inputs.foldl
          (fun u i => alRemove u i.prevTransactionOutputHash) u
        tx.outputs.foldl
          (fun u o => alInsert u (hashTx tx) (false, o)) u') u)
      c.utxos }

/-- Chains built exclusively through successful add_block calls starting
from the fresh Blockchain::new state. -/
inductive Reachable : Blockchain → Prop where
  | base : Reachable blockchainNew
  | step {c : Blockchain} {b : Block} {c' : Blockchain} :
      Reachable c → addBlock c b = .ok c' → Reachable c'

/-!  Concrete data used by the decidable claim theorems and by the
witnesses of the quantified ones. -/

/-- A coinbase output worth the full initial subsidy (50 * 10^8). -/
def demoOut : TransactionOutput :=
  { value := 5000000000, uniqueId := 7, pubkey := ⟨11⟩ }

/-- A coinbase transaction minting exactly the initial subsidy. -/
def demoCoinbase : Transaction := { inputs := [], outputs := [demoOut] }

/-- A transaction with no inputs and no outputs. -/
def demoEmptyTx : Transaction := { inputs := [], outputs := [] }

/-- A genesis block: zero prev hash, accepted without further checks. -/
def demoGenesis : Block :=
  { header := { timestamp := 0, nonce := 0, prevBlockHash := hashZero,
                merkleRoot := 0, target := MIN_TARGET },
    transactions := [] }

/-- The chain after add_block of the genesis block on a fresh state. -/
def demoChain1 : Blockchain :=
  (addBlock blockchainNew demoGenesis).stateOf blockchainNew

/-- 21 transactions: a coinbase and 20 empty transactions — one more than
BLOCK_TRANSACTION_CAP. -/
def c9txs : List Transaction := demoCoinbase :: List.replicate 20 demoEmptyTx

/-- A height-1 block with 21 transactions, valid under every add_block
check. -/
def c9bigBlock : Block :=
  { header := { timestamp := 1, nonce := 0,
                prevBlockHash := hashBlock demoGenesis,
                merkleRoot := (merkleCalculate c9txs).getD 0,
                target := MIN_TARGET },
    transactions := c9txs }

/-- The chain after also accepting the 21-transaction block. -/
def demoChain2 : Blockchain :=
  (addBlock demoChain1 c9bigBlock).stateOf blockchainNew

/-- An on-chain output worth 10 satoshis, referenced by hash below. -/
def spentOut : TransactionOutput := { value := 10, uniqueId := 3, pubkey := ⟨5⟩ }

/-- The UTXO hash of spentOut. -/
def hSpent : Hash := hashOutput spentOut

/-- A signature over hSpent under spentOut's pubkey (verifies). -/
def sigSpent : Signature := { signedHash := hSpent, signer := ⟨5⟩ }

/-- A transaction spending spentOut entirely as a fee (no outputs). -/
def spendTx : Transaction :=
  { inputs := [{ prevTransactionOutputHash := hSpent, signature := sigSpent }],
    outputs := [] }

/-- A UTXO set holding just spentOut, unreserved. -/
def c1utxos : UtxoMap := [(hSpent, (false, spentOut))]

/-- A coinbase paying subsidy + the 10-satoshi fee of spendTx, as the claim
requires at height 1. -/
def c1cbPlus10 : Transaction :=
  { inputs := [],
    outputs := [{ value := 5000000010, uniqueId := 7, pubkey := ⟨11⟩ }] }

/-- Height-1 block whose coinbase pays subsidy + actual fees (claim: valid). -/
def c1blockA : Block :=
  { header := { timestamp := 1, nonce := 0, prevBlockHash := 0,
                merkleRoot := 0, target := 0 },
    transactions := [c1cbPlus10, spendTx] }

/-- Height-1 block whose coinbase pays the subsidy only, omitting the
10-satoshi fee (claim: invalid). -/
def c1blockB : Block :=
  { header := { timestamp := 1, nonce := 0, prevBlockHash := 0,
                merkleRoot := 0, target := 0 },
    transactions := [demoCoinbase, spendTx] }

/-- A mempool transaction that reserved hSpent (it spends it). -/
def c2oldTx : Transaction :=
  { inputs := [{ prevTransactionOutputHash := hSpent, signature := sigSpent }],
    outputs := [] }

/-- A second transaction spending the same UTXO hSpent. -/
def c2newTx : Transaction :=
  { inputs := [{ prevTransactionOutputHash := hSpent, signature := sigSpent }],
    outputs := [] }

/-- State where hSpent is reserved by the mempool transaction c2oldTx. -/
def c2state : Blockchain :=
  { utxos := [(hSpent, (true, spentOut))], target := MIN_TARGET,
    blocks := [], mempool := [(0, c2oldTx)] }

/-- The state add_to_mempool(c2newTx) actually produces on c2state. -/
def c2post : Blockchain :=
  (addToMempool 5 c2state c2newTx).stateOf blockchainNew

/-- State with an orphan reservation of hSpent (reserved, no mempool
transaction). -/
def c3state : Blockchain :=
  { utxos := [(hSpent, (true, spentOut))], target := MIN_TARGET,
    blocks := [], mempool := [] }

/-- An insolvent transaction spending spentOut (outputs exceed inputs). -/
def c3greedy : Transaction :=
  { inputs := [{ prevTransactionOutputHash := hSpent, signature := sigSpent }],
    outputs := [{ value := 999, uniqueId := 1, pubkey := ⟨5⟩ }] }

/-- The state the failed add_to_mempool(c3greedy) call leaves behind. -/
def c3post : Blockchain :=
  (addToMempool 0 c3state c3greedy).stateOf blockchainNew

/-- A non-genesis block whose prev hash does not match, rejected by
add_block before any mutation. -/
def c3badBlock : Block :=
  { header := { timestamp := 5, nonce := 0, prevBlockHash := 12345,
                merkleRoot := 0, target := MIN_TARGET },
    transactions := [demoCoinbase] }

/-- Second output of the C4 coinbase. -/
def c4o2 : TransactionOutput := { value := 3, uniqueId := 8, pubkey := ⟨11⟩ }

/-- A coinbase with two outputs. -/
def c4cb : Transaction := { inputs := [], outputs := [demoOut, c4o2] }

/-- A one-block chain with an empty UTXO set, to be rebuilt. -/
def c4chain : Blockchain :=
  { utxos := [], target := MIN_TARGET,
    blocks := [{ header := { timestamp := 0, nonce := 0, prevBlockHash := 0,
                             merkleRoot := 0, target := MIN_TARGET },
                 transactions := [c4cb] }],
    mempool := [] }

/-- 50 blocks timestamped 5 seconds apart (elapsed 245 s over the window). -/
def c5blocks : List Block := (List.range 50).map (fun i =>
  { header := { timestamp := (i : Int) * 5000, nonce := 0, prevBlockHash := 0,
                merkleRoot := 0, target := MIN_TARGET },
    transactions := [] })

/-- Retarget state: 50 blocks, current target MIN_TARGET. -/
def c5state : Blockchain :=
  { utxos := [], target := MIN_TARGET, blocks := c5blocks, mempool := [] }

end Btc

/-!  Theorems.  Helper lemmas first, then one theorem per claim (with a
witness where the claim theorem carries hypotheses). -/

namespace Btc

/-- One merkle layer has ⌈n/2⌉ elements. -/
theorem merkleLayer_length : ∀ l : List Hash,
    (merkleLayer l).length = (l.length + 1) / 2
  | [] => rfl
  | [_] => by simp [merkleLayer]
  | _ :: _ :: rest => by
    simp [merkleLayer, merkleLayer_length rest]; omega

/-- Fuel adequacy: with fuel + 1 at or above the layer length, the fuelled
merkle loop never exhausts its fuel on a nonempty layer. -/
theorem merkleReduceAux_isSome : ∀ (fuel : Nat) (layer : List Hash),
    layer ≠ [] → layer.length ≤ fuel + 1 →
    (merkleReduceAux fuel layer).isSome = true
  | _, [], h, _ => absurd rfl h
  | _, [_], _, _ => by simp [merkleReduceAux]
  | 0, _ :: _ :: _, _, hlen => by simp at hlen
  | fuel + 1, _ :: _ :: rest, _, hlen => by
    rw [merkleReduceAux]
    refine merkleReduceAux_isSome fuel _ (by simp) ?_
    have := merkleLayer_length rest
    simp only [List.length_cons] at hlen ⊢
    omega

/-- C10: Blockchain::new returns an empty block list, an empty UTXO map, an
empty mempool, and target MIN_TARGET = 2^256 - 1, the all-ones U256, so a
fresh node starts at the easiest difficulty. -/
theorem c10_new_starts_empty_at_min_target :
    blockchainNew.blocks = [] ∧ blockchainNew.utxos = [] ∧
    blockchainNew.mempool = [] ∧ blockchainNew.target = MIN_TARGET ∧
    MIN_TARGET = 2 ^ 256 - 1 :=
  ⟨rfl, rfl, rfl, rfl, rfl⟩

/-- C9: add_block imposes no cap on the number of transactions of a block:
a block with 21 > BLOCK_TRANSACTION_CAP transactions passing every
validation check is accepted. -/
theorem c9_add_block_has_no_transaction_cap :
    (addBlock blockchainNew demoGenesis).isOk = true ∧
    (addBlock demoChain1 c9bigBlock).isOk = true ∧
    BLOCK_TRANSACTION_CAP < c9bigBlock.transactions.length := by
  refine ⟨by decide, by decide, by decide⟩

/-- C1: FALSIFIED on the code.  With a 10-satoshi fee actually available
(spendTx spends the 10-satoshi UTXO into zero outputs),
calculate_miner_fees still returns 0 because its `inputs` accumulator is
never populated, so the coinbase paying block_reward + 10 (what the claim
requires) is rejected, while the coinbase paying block_reward alone is
accepted. -/
theorem c1_coinbase_fee_check_is_broken :
    calculateMinerFees c1blockA c1utxos = .ok 0 ∧
    spentOut.value - sumValuesU64 (spendTx.outputs.map (·.value)) = 10 ∧
    sumValuesU64 (c1cbPlus10.outputs.map (·.value)) =
      u64add (blockReward 1) 10 ∧
    verifyCoinbaseTransaction c1blockA 1 c1utxos =
      .error .InvalidTransaction ∧
    verifyCoinbaseTransaction c1blockB 1 c1utxos = .ok () := by
  refine ⟨by decide, by decide, by decide, by decide, by decide⟩

/-- C2: FALSIFIED on the code.  hSpent is reserved by the mempool
transaction c2oldTx (hSpent is among its inputs); after add_to_mempool of
c2newTx (also spending hSpent) succeeds, c2oldTx has NOT been removed: both
transactions sit in the mempool with hSpent among their inputs, so the
"exactly one reserver" invariant fails (the conflict search inspects
mempool OUTPUTS, never finding the reserver). -/
theorem c2_conflicting_reserver_not_evicted :
    (addToMempool 5 c2state c2newTx) = .ok c2post ∧
    alGet c2post.utxos hSpent = some (true, spentOut) ∧
    (0, c2oldTx) ∈ c2post.mempool ∧
    c2post.mempool.countP
      (fun e => e.2.inputs.any
        (fun i => i.prevTransactionOutputHash == hSpent)) = 2 := by
  refine ⟨by decide, by decide, by decide, by decide⟩

/-- C3: COUNTEREXAMPLE.  add_to_mempool of the insolvent c3greedy returns
InvalidTransaction, yet the state has changed: the conflict-resolution pass
already cleared the reserved flag of hSpent before the solvency check
failed. -/
theorem c3_failed_call_mutates_state :
    addToMempool 0 c3state c3greedy = .err .InvalidTransaction c3post ∧
    c3post ≠ c3state ∧
    alGet c3state.utxos hSpent = some (true, spentOut) ∧
    alGet c3post.utxos hSpent = some (false, spentOut) := by
  refine ⟨by decide, by decide, by decide, by decide⟩

/-- C4: FALSIFIED on the code.  Rebuilding the UTXO set of a chain whose
single block holds one coinbase with two outputs yields ONE entry keyed by
the transaction's hash; neither output's own hash is a key, contradicting
the claimed keying by TransactionOutput::hash. -/
theorem c4_rebuild_keys_by_transaction_hash :
    (rebuildUtxos c4chain).utxos = [(hashTx c4cb, (false, c4o2))] ∧
    alContains (rebuildUtxos c4chain).utxos (hashOutput demoOut) = false ∧
    alContains (rebuildUtxos c4chain).utxos (hashOutput c4o2) = false ∧
    c4chain.blocks.map (·.transactions) = [[c4cb]] ∧
    c4cb.outputs = [demoOut, c4o2] := by
  refine ⟨by decide, by decide, by decide, by decide, by decide⟩

/-- C5: FALSIFIED on the code.  A genuine retarget step (50 blocks, 5 s
apart, elapsed 245 s, target MIN_TARGET) panics: the candidate
MIN_TARGET * 245 / 500 is at least target / 4, so the clamp evaluates
`self.target * 4`, a U256 multiplication that overflows (and for elapsed
beyond 500 s the `U256::from_str_radix(...).expect` fails first), although
the claim says the step never fails. -/
theorem c5_retarget_step_panics :
    tryAdjustTarget c5state = none ∧
    c5state.target = MIN_TARGET ∧
    c5state.blocks.length = DIFFICULTY_UPDATE_INTERVAL := by
  refine ⟨by decide, by decide, by decide⟩

/-- C8: COUNTEREXAMPLE.  MerkleRoot::calculate on the empty transaction
list reads layer[0] of an empty layer and panics; it does not return an
empty root. -/
theorem c8_empty_list_panics :
    merkleCalculate [] = none := by decide

/-- C8 (amended): MerkleRoot::calculate is total on every NON-empty
transaction list — the pairwise reduction always produces a root — while
the empty list panics instead of producing an empty root. -/
theorem c8_nonempty_total_amended (txs : List Transaction)
    (hne : txs ≠ []) : (merkleCalculate txs).isSome = true := by
  unfold merkleCalculate
  refine merkleReduceAux_isSome txs.length (txs.map hashTx) ?_ ?_
  · simpa using hne
  · simp

/-- C8 amended, witnessed at the one-transaction list. -/
theorem c8_nonempty_total_amended_witness :
    [demoEmptyTx] ≠ [] ∧ (merkleCalculate [demoEmptyTx]).isSome = true :=
  ⟨by decide, c8_nonempty_total_amended [demoEmptyTx] (by decide)⟩

/-- finish of add_block never returns an error result. -/
theorem finishAdd_ne_err (c : Blockchain) (b : Block) (e : BtcError)
    (c' : Blockchain) : finishAdd c b ≠ .err e c' := by
  unfold finishAdd
  split <;> simp

/-- C3 (amended): add_block returns every validation error with the state
untouched; add_to_mempool never changes blocks or target on an error, and
any phase-1 (referential-integrity / duplicate-input) failure returns the
state untouched — only the solvency failure can leave behind the
conflict-resolution mutations exhibited by the counterexample. -/
theorem c3_error_isolation_amended :
    (∀ (c : Blockchain) (b : Block) (e : BtcError) (c' : Blockchain),
      addBlock c b = .err e c' → c' = c)
    ∧ (∀ (now : Int) (c : Blockchain) (t : Transaction) (e : BtcError)
        (c' : Blockchain), addToMempool now c t = .err e c' →
        c'.blocks = c.blocks ∧ c'.target = c.target)
    ∧ (∀ (now : Int) (c : Blockchain) (t : Transaction) (e : BtcError),
        atmCheckInputs c.utxos t.inputs [] = some e →
        addToMempool now c t = .err e c) := by
  refine ⟨?_, ?_, ?_⟩
  · intro c b e c' h
    unfold addBlock at h
    split at h
    · split at h
      · exact absurd h (finishAdd_ne_err _ _ _ _)
      · cases h; rfl
    · split at h
      · split at h
        · split at h
          · cases h
          · split at h
            · split at h
              · split at h
                · cases h; rfl
                · exact absurd h (finishAdd_ne_err _ _ _ _)
              · cases h; rfl
            · cases h; rfl
        · cases h; rfl
      · cases h; rfl
  · intro now c t e c' h
    unfold addToMempool at h
    split at h
    · cases h; exact ⟨rfl, rfl⟩
    · unfold atmAfterConflict at h
      split at h
      · cases h
      · split at h
        · cases h; exact ⟨rfl, rfl⟩
        · split at h
          · cases h
          · cases h
  · intro now c t e hphase
    unfold addToMempool
    rw [hphase]

/-- C3 amended, witnessed on a concrete rejected block: a wrong-prev-hash
block is refused and the chain is returned exactly as it was. -/
theorem c3_error_isolation_amended_witness :
    addBlock demoChain1 c3badBlock = .err .InvalidBlock demoChain1 ∧
    demoChain1 = demoChain1 :=
  ⟨by decide,
   c3_error_isolation_amended.1 demoChain1 c3badBlock .InvalidBlock
     demoChain1 (by decide)⟩

/-- try_adjust_target assigns only the target field. -/
theorem tryAdjustTarget_some (c c' : Blockchain)
    (h : tryAdjustTarget c = some c') :
    c'.blocks = c.blocks ∧ c'.utxos = c.utxos ∧ c'.mempool = c.mempool := by
  unfold tryAdjustTarget at h
  cases hA : adjustCandidate c with
  | none => rw [hA] at h; cases h
  | some t => rw [hA] at h; cases h; exact ⟨rfl, rfl, rfl⟩

/-- On success, the tail of add_block appends exactly the new block. -/
theorem finishAdd_ok (c : Blockchain) (b : Block) (c' : Blockchain)
    (h : finishAdd c b = .ok c') : c'.blocks = c.blocks ++ [b] := by
  unfold finishAdd at h
  split at h
  · cases h
    rename_i c2 heq
    exact (tryAdjustTarget_some _ _ heq).1
  · cases h

/-- A successful add_block appends exactly the candidate block. -/
theorem addBlock_ok_blocks (c : Blockchain) (b : Block) (c' : Blockchain)
    (h : addBlock c b = .ok c') : c'.blocks = c.blocks ++ [b] := by
  unfold addBlock at h
  split at h
  · split at h
    · exact finishAdd_ok c b c' h
    · cases h
  · split at h
    · split at h
      · split at h
        · cases h
        · split at h
          · split at h
            · split at h
              · cases h
              · exact finishAdd_ok c b c' h
            · cases h
          · cases h
      · cases h
    · cases h

/-- A successful non-genesis add_block implies the PoW, prev-hash and
timestamp checks against the last block all passed. -/
theorem addBlock_ok_checks (c : Blockchain) (b : Block) (c' : Blockchain)
    (hne : c.blocks ≠ []) (h : addBlock c b = .ok c') :
    matchesTarget (hashHeader b.header) b.header.target = true ∧
    b.header.prevBlockHash = hashBlock (c.blocks.getLast hne) ∧
    (c.blocks.getLast hne).header.timestamp < b.header.timestamp := by
  unfold addBlock at h
  rw [dif_neg hne] at h
  split at h
  · rename_i hmt
    split at h
    · rename_i hprev
      split at h
      · cases h
      · split at h
        · split at h
          · rename_i hts
            split at h
            · cases h
            · exact ⟨hmt, hprev, hts⟩
          · cases h
        · cases h
    · cases h
  · cases h

/-- C6: in every chain built exclusively through successful add_block calls
from the fresh state, each non-genesis block points at the hash of its
predecessor, its header hash meets its own target, and its timestamp
strictly exceeds its predecessor's. -/
theorem c6_chain_link_pow_timestamp (c : Blockchain) (hc : Reachable c) :
    ∀ i : Nat, 0 < i → ∀ hi : i < c.blocks.length,
      (c.blocks.get ⟨i, hi⟩).header.prevBlockHash
        = hashBlock (c.blocks.get ⟨i - 1, by omega⟩) ∧
      matchesTarget (hashHeader (c.blocks.get ⟨i, hi⟩).header)
        (c.blocks.get ⟨i, hi⟩).header.target = true ∧
      (c.blocks.get ⟨i - 1, by omega⟩).header.timestamp
        < (c.blocks.get ⟨i, hi⟩).header.timestamp := by
  induction hc with
  | base => intro i h0 hi; simp [blockchainNew] at hi
  | @step cp b cn hr heq ih =>
    intro i h0 hi
    have hb : cn.blocks = cp.blocks ++ [b] := addBlock_ok_blocks cp b cn heq
    have hlen : cn.blocks.length = cp.blocks.length + 1 := by simp [hb]
    by_cases hlt : i < cp.blocks.length
    · have hlt' : i - 1 < cp.blocks.length := by omega
      have h1 : cn.blocks.get ⟨i, hi⟩ = cp.blocks.get ⟨i, hlt⟩ := by
        simp only [List.get_eq_getElem, hb]
        exact List.getElem_append_left hlt
      have h2 : cn.blocks.get ⟨i - 1, by omega⟩
          = cp.blocks.get ⟨i - 1, hlt'⟩ := by
        simp only [List.get_eq_getElem, hb]
        exact List.getElem_append_left hlt'
      rw [h1, h2]
      exact ih i h0 hlt
    · have hieq : i = cp.blocks.length := by omega
      have hne : cp.blocks ≠ [] := by
        intro hnil
        rw [hnil] at hieq
        simp at hieq
        omega
      obtain ⟨hmt, hprev, hts⟩ := addBlock_ok_checks cp b cn hne heq
      have hgi : cn.blocks.get ⟨i, hi⟩ = b := by
        simp only [List.get_eq_getElem, hb]
        rw [List.getElem_append_right (by omega)]
        simp [hieq]
      have hgp : cn.blocks.get ⟨i - 1, by omega⟩
          = cp.blocks.getLast hne := by
        simp only [List.get_eq_getElem, hb]
        rw [List.getElem_append_left (by omega)]
        rw [List.getLast_eq_getElem]
        have hidx : i - 1 = cp.blocks.length - 1 := by omega
        simp [hidx]
      rw [hgi, hgp]
      exact ⟨hprev, hmt, hts⟩

/-- alGet succeeds exactly on the stored keys. -/
theorem alGet_isSome_iff {β : Type} : ∀ (m : List (Hash × β)) (k : Hash),
    (alGet m k).isSome = true ↔ k ∈ alKeys m
  | [], k => by simp [alGet, alKeys]
  | (k', v) :: rest, k => by
    by_cases hk : k' = k
    · simp [alGet, alKeys, hk]
    · have : ¬ k = k' := fun he => hk he.symm
      simp [alGet, alKeys, hk, this, alGet_isSome_iff rest k]

/-- contains_key is membership among the keys. -/
theorem alContains_iff {β : Type} (m : List (Hash × β)) (k : Hash) :
    alContains m k = true ↔ k ∈ alKeys m :=
  alGet_isSome_iff m k

/-- Inserting a fresh key appends it to the key list. -/
theorem alKeys_alInsert {β : Type} : ∀ (m : List (Hash × β)) (k : Hash)
    (v : β), k ∉ alKeys m → alKeys (alInsert m k v) = alKeys m ++ [k]
  | [], k, v, _ => rfl
  | (k', v') :: rest, k, v, h => by
    have hsplit : ¬ k = k' ∧ k ∉ alKeys rest := by
      simpa [alKeys] using h
    have hk : ¬ k' = k := fun he => hsplit.1 he.symm
    have ih := alKeys_alInsert rest k v hsplit.2
    simp only [alKeys] at ih ⊢
    simp [alInsert, if_neg hk, ih]

/-- The inner input loop of verify_transactions succeeds exactly when every
input resolves with a valid signature, the input hashes are distinct, and
none of them was already accumulated. -/
theorem vtInputsLoop_ok_iff (utxos : UtxoMap) :
    ∀ (ins : List TransactionInput) (acc : List (Hash × TransactionOutput))
      (v : Nat),
    (∃ pr, vtInputsLoop utxos ins acc v = .ok pr) ↔
      ((∀ i ∈ ins, inputExistsAndSigns utxos i) ∧
       (inputHashes ins).Nodup ∧
       ∀ h ∈ inputHashes ins, h ∉ alKeys acc)
  | [], acc, v => by simp [vtInputsLoop, inputHashes]
  | i :: rest, acc, v => by
    cases hg : alGet utxos i.prevTransactionOutputHash with
    | none =>
      simp only [vtInputsLoop, hg]
      constructor
      · rintro ⟨pr, hpr⟩; cases hpr
      · rintro ⟨hall, -, -⟩
        have := hall i (by simp)
        rw [inputExistsAndSigns, hg] at this
        exact this.elim
    | some p =>
      by_cases hc : alContains acc i.prevTransactionOutputHash = true
      · simp only [vtInputsLoop, hg]
        rw [if_pos hc]
        constructor
        · rintro ⟨pr, hpr⟩; cases hpr
        · rintro ⟨-, -, hfresh⟩
          exact absurd ((alContains_iff _ _).mp hc)
            (hfresh i.prevTransactionOutputHash (by simp [inputHashes]))
      · by_cases hs : sigVerify i.signature i.prevTransactionOutputHash
            p.2.pubkey = true
        · have hmemacc : i.prevTransactionOutputHash ∉ alKeys acc :=
            fun hm => hc ((alContains_iff _ _).mpr hm)
          have hkeys := alKeys_alInsert acc i.prevTransactionOutputHash
            p.2 hmemacc
          simp only [vtInputsLoop, hg]
          rw [if_neg hc, if_neg (fun hcon => hcon hs)]
          rw [vtInputsLoop_ok_iff utxos rest _ _]
          have hhead : inputExistsAndSigns utxos i := by
            rw [inputExistsAndSigns, hg]; exact hs
          constructor
          · rintro ⟨hall, hnd, hfresh⟩
            refine ⟨?_, ?_, ?_⟩
            · intro j hj
              rcases List.mem_cons.mp hj with hj | hj
              · exact hj ▸ hhead
              · exact hall j hj
            · rw [inputHashes, List.map_cons, List.nodup_cons]
              refine ⟨?_, hnd⟩
              intro hmem
              have := hfresh _ hmem
              rw [hkeys] at this
              simp at this
            · intro h hm
              rw [inputHashes, List.map_cons] at hm
              rcases List.mem_cons.mp hm with hh | hh
              · exact hh ▸ hmemacc
              · intro hacc
                have := hfresh h hh
                rw [hkeys] at this
                simp [hacc] at this
          · rintro ⟨hall, hnd, hfresh⟩
            rw [inputHashes, List.map_cons, List.nodup_cons] at hnd
            refine ⟨?_, hnd.2, ?_⟩
            · intro j hj
              exact hall j (List.mem_cons_of_mem i hj)
            · intro h hm
              rw [hkeys]
              simp only [List.mem_append, List.mem_singleton]
              rintro (hacc | hrfl)
              · refine hfresh h ?_ hacc
                rw [inputHashes, List.map_cons]
                exact List.mem_cons_of_mem _ hm
              · subst hrfl
                exact hnd.1 hm
        · simp only [vtInputsLoop, hg]
          rw [if_neg hc, if_pos hs]
          constructor
          · rintro ⟨pr, hpr⟩; cases hpr
          · rintro ⟨hall, -, -⟩
            have := hall i (by simp)
            rw [inputExistsAndSigns, hg] at this
            exact absurd this hs

/-- On success, the inner input loop extends the accumulator's keys by the
input hashes in order and adds the referenced values to the running wrapped
sum. -/
theorem vtInputsLoop_ok_post (utxos : UtxoMap) :
    ∀ (ins : List TransactionInput) (acc : List (Hash × TransactionOutput))
      (v : Nat) (pr : List (Hash × TransactionOutput) × Nat),
    vtInputsLoop utxos ins acc v = .ok pr →
    alKeys pr.1 = alKeys acc ++ inputHashes ins ∧
    pr.2 = List.foldl u64add v (ins.map (inputVal utxos))
  | [], acc, v, pr, h => by
    cases h
    simp [inputHashes]
  | i :: rest, acc, v, pr, h => by
    cases hg : alGet utxos i.prevTransactionOutputHash with
    | none =>
      simp only [vtInputsLoop, hg] at h
      cases h
    | some p =>
      simp only [vtInputsLoop, hg] at h
      by_cases hc : alContains acc i.prevTransactionOutputHash = true
      · rw [if_pos hc] at h; cases h
      · rw [if_neg hc] at h
        by_cases hs : sigVerify i.signature i.prevTransactionOutputHash
            p.2.pubkey = true
        · rw [if_neg (fun hcon => hcon hs)] at h
          have hmemacc : i.prevTransactionOutputHash ∉ alKeys acc :=
            fun hm => hc ((alContains_iff _ _).mpr hm)
          have hkeys := alKeys_alInsert acc i.prevTransactionOutputHash
            p.2 hmemacc
          obtain ⟨h1, h2⟩ := vtInputsLoop_ok_post utxos rest _ _ pr h
          constructor
          · rw [h1, hkeys]
            simp [inputHashes]
          · rw [h2]
            simp [List.map_cons, List.foldl_cons, inputVal, hg]
        · rw [if_pos hs] at h; cases h

/-- The inner input loop only raises InvalidTransaction or
InvalidSignature, the latter only when some input fails to resolve with a
valid signature. -/
theorem vtInputsLoop_err (utxos : UtxoMap) :
    ∀ (ins : List TransactionInput) (acc : List (Hash × TransactionOutput))
      (v : Nat) (e : BtcError),
    vtInputsLoop utxos ins acc v = .error e →
    (e = .InvalidTransaction ∨ e = .InvalidSignature) ∧
    (e = .InvalidSignature → ¬ ∀ i ∈ ins, inputExistsAndSigns utxos i)
  | [], _, _, _, h => by cases h
  | i :: rest, acc, v, e, h => by
    cases hg : alGet utxos i.prevTransactionOutputHash with
    | none =>
      simp only [vtInputsLoop, hg] at h
      cases h
      exact ⟨Or.inl rfl, fun he => nomatch he⟩
    | some p =>
      simp only [vtInputsLoop, hg] at h
      by_cases hc : alContains acc i.prevTransactionOutputHash = true
      · rw [if_pos hc] at h
        cases h
        exact ⟨Or.inl rfl, fun he => nomatch he⟩
      · rw [if_neg hc] at h
        by_cases hs : sigVerify i.signature i.prevTransactionOutputHash
            p.2.pubkey = true
        · rw [if_neg (fun hcon => hcon hs)] at h
          obtain ⟨h1, h2⟩ := vtInputsLoop_err utxos rest _ _ e h
          refine ⟨h1, fun he hall => ?_⟩
          exact h2 he (fun j hj => hall j (List.mem_cons_of_mem i hj))
        · rw [if_pos hs] at h
          cases h
          refine ⟨Or.inr rfl, fun _ hall => ?_⟩
          have := hall i (by simp)
          rw [inputExistsAndSigns, hg] at this
          exact hs this

/-- The transaction loop of verify_transactions succeeds exactly when every
transaction's inputs resolve with valid signatures, every transaction is
solvent, all input hashes are distinct across the list, and none collides
with the accumulator. -/
theorem vtTxLoop_ok_iff (utxos : UtxoMap) :
    ∀ (txs : List Transaction) (acc : List (Hash × TransactionOutput)),
    vtTxLoop utxos txs acc = .ok () ↔
      ((∀ tx ∈ txs, (∀ i ∈ tx.inputs, inputExistsAndSigns utxos i) ∧
          txOutputValueSum tx ≤ txInputValueSum utxos tx) ∧
       (allInputHashes txs).Nodup ∧
       ∀ h ∈ allInputHashes txs, h ∉ alKeys acc)
  | [], acc => by simp [vtTxLoop, allInputHashes]
  | tx :: rest, acc => by
    cases hv : vtInputsLoop utxos tx.inputs acc 0 with
    | error e =>
      simp only [vtTxLoop, hv]
      constructor
      · intro h; cases h
      · rintro ⟨hall, hnd, hfresh⟩
        rw [allInputHashes, List.nodup_append] at hnd
        have hex : ∃ pr, vtInputsLoop utxos tx.inputs acc 0 = .ok pr := by
          rw [vtInputsLoop_ok_iff]
          refine ⟨(hall tx (by simp)).1, hnd.1, ?_⟩
          intro h hm
          exact hfresh h (by rw [allInputHashes]
                             exact List.mem_append_left _ hm)
        obtain ⟨pr, hpr⟩ := hex
        rw [hpr] at hv
        cases hv
    | ok pr =>
      obtain ⟨acc2, v2⟩ := pr
      simp only [vtTxLoop, hv]
      obtain ⟨hkeys2, hfold⟩ :=
        vtInputsLoop_ok_post utxos tx.inputs acc 0 (acc2, v2) hv
      have hv2 : v2 = txInputValueSum utxos tx := hfold
      obtain ⟨hA, hB, hC⟩ :=
        (vtInputsLoop_ok_iff utxos tx.inputs acc 0).mp ⟨(acc2, v2), hv⟩
      by_cases hsolv : v2 < txOutputValueSum tx
      · rw [if_pos hsolv]
        constructor
        · intro h; cases h
        · rintro ⟨hall, -, -⟩
          have hle := (hall tx (by simp)).2
          rw [← hv2] at hle
          exact absurd hsolv (not_lt.mpr hle)
      · rw [if_neg hsolv]
        rw [vtTxLoop_ok_iff utxos rest acc2]
        constructor
        · rintro ⟨hrest, hndR, hfreshR⟩
          refine ⟨?_, ?_, ?_⟩
          · intro t ht
            rcases List.mem_cons.mp ht with rfl | ht'
            · refine ⟨hA, ?_⟩
              have hle := not_lt.mp hsolv
              rw [hv2] at hle
              exact hle
            · exact hrest t ht'
          · rw [allInputHashes, List.nodup_append]
            refine ⟨hB, hndR, ?_⟩
            intro a ha hb
            have := hfreshR a hb
            rw [hkeys2] at this
            exact this (List.mem_append_right _ ha)
          · intro h hm
            rw [allInputHashes] at hm
            rcases List.mem_append.mp hm with hh | hh
            · exact hC h hh
            · intro hacc
              have := hfreshR h hh
              rw [hkeys2] at this
              exact this (List.mem_append_left _ hacc)
        · rintro ⟨hall, hnd, hfresh⟩
          rw [allInputHashes, List.nodup_append] at hnd
          obtain ⟨hndH, hndR, hdisj⟩ := hnd
          refine ⟨?_, hndR, ?_⟩
          · intro t ht
            exact hall t (List.mem_cons_of_mem tx ht)
          · intro h hm
            rw [hkeys2]
            simp only [List.mem_append]
            rintro (hacc | hhead)
            · exact hfresh h
                (by rw [allInputHashes]
                    exact List.mem_append_right _ hm) hacc
            · exact hdisj hhead hm

/-- The transaction loop only raises InvalidTransaction or
InvalidSignature, the latter only when some input of some transaction
fails to resolve with a valid signature. -/
theorem vtTxLoop_err (utxos : UtxoMap) :
    ∀ (txs : List Transaction) (acc : List (Hash × TransactionOutput))
      (e : BtcError),
    vtTxLoop utxos txs acc = .error e →
    (e = .InvalidTransaction ∨ e = .InvalidSignature) ∧
    (e = .InvalidSignature →
      ¬ ∀ tx ∈ txs, ∀ i ∈ tx.inputs, inputExistsAndSigns utxos i)
  | [], _, _, h => by cases h
  | tx :: rest, acc, e, h => by
    cases hv : vtInputsLoop utxos tx.inputs acc 0 with
    | error e2 =>
      simp only [vtTxLoop, hv] at h
      cases h
      obtain ⟨h1, h2⟩ := vtInputsLoop_err utxos tx.inputs acc 0 _ hv
      exact ⟨h1, fun he hall => h2 he (hall tx (by simp))⟩
    | ok pr =>
      obtain ⟨acc2, v2⟩ := pr
      simp only [vtTxLoop, hv] at h
      by_cases hsolv : v2 < txOutputValueSum tx
      · rw [if_pos hsolv] at h
        cases h
        exact ⟨Or.inl rfl, fun he => nomatch he⟩
      · rw [if_neg hsolv] at h
        obtain ⟨h1, h2⟩ := vtTxLoop_err utxos rest acc2 e h
        exact ⟨h1, fun he hall =>
          h2 he (fun t ht => hall t (List.mem_cons_of_mem tx ht))⟩

/-- C7: under a nonempty transaction list and a passing coinbase check,
verify_transactions succeeds iff every non-coinbase input resolves in
utxos with a verifying signature, no input hash repeats anywhere across
the block's non-coinbase transactions, and each transaction's input value
covers its output value; the errors it can raise are InvalidTransaction
and InvalidSignature, and InvalidSignature occurs only when some input
fails to resolve with a verifying signature. -/
theorem c7_verify_transactions_characterization
    (b : Block) (height : Nat) (utxos : UtxoMap)
    (hne : b.transactions ≠ [])
    (hcb : verifyCoinbaseTransaction b height utxos = .ok ()) :
    (verifyTransactions b height utxos = .ok () ↔
      ((∀ tx ∈ b.transactions.drop 1,
          (∀ i ∈ tx.inputs, inputExistsAndSigns utxos i) ∧
          txOutputValueSum tx ≤ txInputValueSum utxos tx) ∧
        (allInputHashes (b.transactions.drop 1)).Nodup))
    ∧ (∀ e, verifyTransactions b height utxos = .error e →
        e = .InvalidTransaction ∨ e = .InvalidSignature)
    ∧ (verifyTransactions b height utxos = .error .InvalidSignature →
        ¬ ∀ tx ∈ b.transactions.drop 1, ∀ i ∈ tx.inputs,
            inputExistsAndSigns utxos i) := by
  have hred : verifyTransactions b height utxos
      = vtTxLoop utxos (b.transactions.drop 1) [] := by
    unfold verifyTransactions
    rw [if_neg (by simpa using hne), hcb]
  rw [hred]
  refine ⟨?_, ?_, ?_⟩
  · rw [vtTxLoop_ok_iff]
    constructor
    · rintro ⟨h1, h2, -⟩; exact ⟨h1, h2⟩
    · rintro ⟨h1, h2⟩; exact ⟨h1, h2, by simp [alKeys]⟩
  · intro e he
    exact (vtTxLoop_err utxos _ _ e he).1
  · intro he
    exact (vtTxLoop_err utxos _ _ _ he).2 rfl

/-- C7 witnessed on a concrete height-1 block (subsidy coinbase plus one
signed, solvent spend): both hypotheses hold, and the iff applies. -/
theorem c7_verify_transactions_characterization_witness :
    (c1blockB.transactions ≠ [] ∧
     verifyCoinbaseTransaction c1blockB 1 c1utxos = .ok ()) ∧
    verifyTransactions c1blockB 1 c1utxos = .ok () :=
  ⟨⟨by decide, by decide⟩,
   (c7_verify_transactions_characterization c1blockB 1 c1utxos
      (by decide) (by decide)).1.mpr (by decide)⟩

/-- C6 witnessed on the concrete two-block chain demoChain2 at i = 1. -/
theorem c6_chain_link_pow_timestamp_witness :
    (demoChain2.blocks.get ⟨1, by decide⟩).header.prevBlockHash
      = hashBlock (demoChain2.blocks.get ⟨0, by decide⟩) ∧
    (demoChain2.blocks.get ⟨0, by decide⟩).header.timestamp
      < (demoChain2.blocks.get ⟨1, by decide⟩).header.timestamp := by
  have hreach : Reachable demoChain2 :=
    Reachable.step
      (Reachable.step Reachable.base
        (show addBlock blockchainNew demoGenesis = .ok demoChain1 by decide))
      (show addBlock demoChain1 c9bigBlock = .ok demoChain2 by decide)
  have h := c6_chain_link_pow_timestamp demoChain2 hreach 1 (by decide)
    (by decide)
  exact ⟨h.1, h.2.2⟩

end Btc
